import Mathlib

/-!
Verification of the region-weighted mesh simplifier
(`apps/portfolio/decimate.py`) and of the Xcode file-registration
script (`apps/workout/add_files_to_xcode.py`).

Vertex coordinates are modelled as rationals; the external
edge-collapse decimation transform is an abstract parameter.
-/

/-- A vertex position, as `v.co` in the source. -/
structure Vec3 where
  x : ℚ
  y : ℚ
  z : ℚ
deriving Repr, DecidableEq

/-- A mesh: an ordered list of vertices and a list of polygons
(each polygon a list of vertex indices). -/
structure Mesh where
  vertices : List Vec3
  polygons : List (List ℕ)
deriving Repr, DecidableEq

/-- Errors raised by the simplifier; `min`/`max` over an empty
vertex sequence aborts processing. -/
inductive SimplifyError where
  | EmptyMeshError
deriving Repr, DecidableEq

/-- The y-coordinates of the vertices, as `(v.co.y for v in verts)`. -/
def yList (vs : List Vec3) : List ℚ :=
  vs.map Vec3.y

/-- Python `min` over a sequence: `none` on the empty sequence. -/
def listMin : List ℚ → Option ℚ
  | [] => none
  | a :: rest => some (rest.foldl min a)

/-- Python `max` over a sequence: `none` on the empty sequence. -/
def listMax : List ℚ → Option ℚ
  | [] => none
  | a :: rest => some (rest.foldl max a)

/-- Source line 39: `y_range = max_y - min_y`. -/
def y_range (min_y max_y : ℚ) : ℚ :=
  max_y - min_y

/-- Source line 40: `face_threshold = max_y - (y_range * (1 - face_cutoff_y))`. -/
def face_threshold (min_y max_y face_cutoff : ℚ) : ℚ :=
  max_y - (y_range min_y max_y * (1 - face_cutoff))

/-- The threshold computed for a vertex list: `min`/`max` of the
y-coordinates fed into `face_threshold`; `none` when the mesh has no
vertices (Python `min`/`max` raise there). -/
def thresholdOf (vs : List Vec3) (face_cutoff : ℚ) : Option ℚ :=
  match listMin (yList vs), listMax (yList vs) with
  | some mn, some mx => some (face_threshold mn mx face_cutoff)
  | _, _ => none

/-- Indices collected into `face_verts`: vertices with
`v.co.y >= face_threshold`, in enumeration order. -/
def face_verts (vs : List Vec3) (thr : ℚ) : List ℕ :=
  (vs.enum.filter (fun p => decide (thr ≤ p.2.y))).map Prod.fst

/-- Indices collected into `body_verts`: the `else` branch of the
classification loop. -/
def body_verts (vs : List Vec3) (thr : ℚ) : List ℕ :=
  (vs.enum.filter (fun p => decide (¬ thr ≤ p.2.y))).map Prod.fst

/-- The per-mesh processing pipeline: classify the vertices, then run
the external collapse decimation twice — the Body pass first, then the
Face pass on the mutated mesh.  `collapse m r vg` stands for applying a
COLLAPSE decimate modifier with ratio `r` scoped to vertex group `vg`. -/
def simplify (collapse : Mesh → ℚ → List ℕ → Mesh)
    (m : Mesh) (bodyR faceR face_cutoff : ℚ) : Except SimplifyError Mesh :=
  match thresholdOf m.vertices face_cutoff with
  | none => Except.error SimplifyError.EmptyMeshError
  | some thr =>
      let bv := body_verts m.vertices thr
      let fv := face_verts m.vertices thr
      Except.ok (collapse (collapse m bodyR bv) faceR fv)

/-! Basic facts about the min/max folds. -/

lemma foldl_min_le_init (l : List ℚ) (a : ℚ) : l.foldl min a ≤ a := by
  induction l generalizing a with
  | nil => exact le_refl a
  | cons b t ih => exact le_trans (ih (min a b)) (min_le_left a b)

lemma foldl_min_le_of_mem (l : List ℚ) (a x : ℚ) (hx : x ∈ l) :
    l.foldl min a ≤ x := by
  induction l generalizing a with
  | nil => cases hx
  | cons b t ih =>
    rcases List.mem_cons.mp hx with h | h
    · subst h
      exact le_trans (foldl_min_le_init t (min a x)) (min_le_right a x)
    · exact ih (min a b) h

lemma foldl_min_mem (l : List ℚ) (a : ℚ) :
    l.foldl min a = a ∨ l.foldl min a ∈ l := by
  induction l generalizing a with
  | nil => exact Or.inl rfl
  | cons b t ih =>
    rcases ih (min a b) with h | h
    · rcases min_choice a b with hm | hm
      · exact Or.inl (h.trans hm)
      · exact Or.inr (List.mem_cons.mpr (Or.inl (h.trans hm)))
    · exact Or.inr (List.mem_cons.mpr (Or.inr h))

lemma le_foldl_max_init (l : List ℚ) (a : ℚ) : a ≤ l.foldl max a := by
  induction l generalizing a with
  | nil => exact le_refl a
  | cons b t ih => exact le_trans (le_max_left a b) (ih (max a b))

lemma le_foldl_max_of_mem (l : List ℚ) (a x : ℚ) (hx : x ∈ l) :
    x ≤ l.foldl max a := by
  induction l generalizing a with
  | nil => cases hx
  | cons b t ih =>
    rcases List.mem_cons.mp hx with h | h
    · subst h
      exact le_trans (le_max_right a x) (le_foldl_max_init t (max a x))
    · exact ih (max a b) h

lemma foldl_max_mem (l : List ℚ) (a : ℚ) :
    l.foldl max a = a ∨ l.foldl max a ∈ l := by
  induction l generalizing a with
  | nil => exact Or.inl rfl
  | cons b t ih =>
    rcases ih (max a b) with h | h
    · rcases max_choice a b with hm | hm
      · exact Or.inl (h.trans hm)
      · exact Or.inr (List.mem_cons.mpr (Or.inl (h.trans hm)))
    · exact Or.inr (List.mem_cons.mpr (Or.inr h))

lemma listMin_le (l : List ℚ) (mn : ℚ) (h : listMin l = some mn) :
    ∀ x ∈ l, mn ≤ x := by
  cases l with
  | nil => simp [listMin] at h
  | cons a rest =>
    simp only [listMin, Option.some.injEq] at h
    intro x hx
    subst h
    rcases List.mem_cons.mp hx with hx | hx
    · exact hx ▸ foldl_min_le_init rest a
    · exact foldl_min_le_of_mem rest a x hx

lemma listMin_mem (l : List ℚ) (mn : ℚ) (h : listMin l = some mn) :
    mn ∈ l := by
  cases l with
  | nil => simp [listMin] at h
  | cons a rest =>
    simp only [listMin, Option.some.injEq] at h
    subst h
    rcases foldl_min_mem rest a with h | h
    · exact List.mem_cons.mpr (Or.inl h)
    · exact List.mem_cons.mpr (Or.inr h)

lemma le_listMax (l : List ℚ) (mx : ℚ) (h : listMax l = some mx) :
    ∀ x ∈ l, x ≤ mx := by
  cases l with
  | nil => simp [listMax] at h
  | cons a rest =>
    simp only [listMax, Option.some.injEq] at h
    intro x hx
    subst h
    rcases List.mem_cons.mp hx with hx | hx
    · exact hx ▸ le_foldl_max_init rest a
    · exact le_foldl_max_of_mem rest a x hx

lemma listMax_mem (l : List ℚ) (mx : ℚ) (h : listMax l = some mx) :
    mx ∈ l := by
  cases l with
  | nil => simp [listMax] at h
  | cons a rest =>
    simp only [listMax, Option.some.injEq] at h
    subst h
    rcases foldl_max_mem rest a with h | h
    · exact List.mem_cons.mpr (Or.inl h)
    · exact List.mem_cons.mpr (Or.inr h)

lemma listMin_isSome (l : List ℚ) (h : l ≠ []) : ∃ mn, listMin l = some mn := by
  cases l with
  | nil => exact absurd rfl h
  | cons a rest => exact ⟨rest.foldl min a, rfl⟩

lemma listMax_isSome (l : List ℚ) (h : l ≠ []) : ∃ mx, listMax l = some mx := by
  cases l with
  | nil => exact absurd rfl h
  | cons a rest => exact ⟨rest.foldl max a, rfl⟩

/-! Membership in the classification lists. -/

lemma mem_face_verts_iff (vs : List Vec3) (thr : ℚ) (i : ℕ) :
    i ∈ face_verts vs thr ↔
      ∃ h : i < vs.length, thr ≤ (vs.get ⟨i, h⟩).y := by
  simp only [face_verts, List.mem_map, List.mem_filter]
  constructor
  · rintro ⟨⟨j, v⟩, ⟨hmem, hcond⟩, rfl⟩
    rw [List.mk_mem_enum_iff_getElem?] at hmem
    have hlt : j < vs.length := by
      by_contra hge
      rw [List.getElem?_eq_none (le_of_not_lt hge)] at hmem
      cases hmem
    refine ⟨hlt, ?_⟩
    have hv : vs.get ⟨j, hlt⟩ = v := by
      have h2 := List.getElem?_eq_getElem hlt
      rw [h2] at hmem
      exact (Option.some.injEq _ _).mp hmem
    rw [hv]
    exact of_decide_eq_true hcond
  · rintro ⟨hlt, hy⟩
    refine ⟨(i, vs.get ⟨i, hlt⟩), ⟨?_, decide_eq_true hy⟩, rfl⟩
    rw [List.mk_mem_enum_iff_getElem?]
    exact List.getElem?_eq_getElem hlt

lemma mem_body_verts_iff (vs : List Vec3) (thr : ℚ) (i : ℕ) :
    i ∈ body_verts vs thr ↔
      ∃ h : i < vs.length, ¬ thr ≤ (vs.get ⟨i, h⟩).y := by
  simp only [body_verts, List.mem_map, List.mem_filter]
  constructor
  · rintro ⟨⟨j, v⟩, ⟨hmem, hcond⟩, rfl⟩
    rw [List.mk_mem_enum_iff_getElem?] at hmem
    have hlt : j < vs.length := by
      by_contra hge
      rw [List.getElem?_eq_none (le_of_not_lt hge)] at hmem
      cases hmem
    refine ⟨hlt, ?_⟩
    have hv : vs.get ⟨j, hlt⟩ = v := by
      have h2 := List.getElem?_eq_getElem hlt
      rw [h2] at hmem
      exact (Option.some.injEq _ _).mp hmem
    rw [hv]
    exact of_decide_eq_true hcond
  · rintro ⟨hlt, hy⟩
    refine ⟨(i, vs.get ⟨i, hlt⟩), ⟨?_, decide_eq_true hy⟩, rfl⟩
    rw [List.mk_mem_enum_iff_getElem?]
    exact List.getElem?_eq_getElem hlt

/-! Concrete meshes used in witnesses and counterexamples. -/

/-- A vertex at the origin (y = 0). -/
def vA : Vec3 := ⟨0, 0, 0⟩

/-- A vertex with y = 1. -/
def vB : Vec3 := ⟨0, 1, 0⟩

/-- A two-vertex mesh spanning y from 0 to 1. -/
def meshAB : Mesh := ⟨[vA, vB], [[0, 1]]⟩

/-- A flat two-vertex mesh (both vertices at y = 2). -/
def meshFlat : Mesh := ⟨[⟨0, 2, 0⟩, ⟨1, 2, 0⟩], [[0, 1]]⟩

/-! Model of `apps/workout/add_files_to_xcode.py`: the part of the
script that registers new Swift files in the Xcode project
(`add_files_to_project`).  The filesystem and the pbxproj project file
are modelled explicitly; loading and saving the project are effectful
calls whose possible library failures are out of scope. -/

namespace Xcode

/-- The directory holding the Watch App sources (`WATCH_APP_DIR`). -/
def WATCH_APP_DIR : String := "phoneless-hevy Watch App"

/-- The list of new files to add (`NEW_FILES` in the source). -/
def NEW_FILES : List String :=
  [ "Services/WorkoutHistoryService.swift",
    "Services/ContextResolver.swift",
    "Services/WorkoutActionStack.swift",
    "Services/ExerciseReplacementService.swift",
    "Views/Components/HistoricalContextView.swift",
    "Views/Components/SupersetIndicator.swift",
    "Parsers/CorrectionCommandParser.swift",
    "Managers/LLMWorkoutParserEnhanced.swift",
    "Managers/WorkoutManagerExtensions.swift" ]

/-- Full on-disk path of a listed file: `WATCH_APP_DIR / file_path`;
it coincides with the `rel_path` string added to the project. -/
def fullPath (f : String) : String :=
  WATCH_APP_DIR ++ "/" ++ f

/-- The last path component, as `Path.name` in Python. -/
def baseName (f : String) : String :=
  (f.splitOn "/").getLastD f

/-- An Xcode project: the file references it contains, by path. -/
structure Project where
  files : List String
deriving Repr, DecidableEq

/-- `project.get_files_by_name(name)`: references whose file name
matches. -/
def get_files_by_name (p : Project) (name : String) : List String :=
  p.files.filter (fun f => baseName f == name)

/-- `project.add_file(rel_path, ...)`: registers a new file reference. -/
def add_file (p : Project) (relPath : String) : Project :=
  ⟨p.files ++ [relPath]⟩

/-- State carried through the per-file loop: the in-memory project and
the two counters. -/
structure LoopState where
  proj : Project
  added : ℕ
  skipped : ℕ
deriving Repr, DecidableEq

/-- One iteration of the `for file_path in NEW_FILES` loop: missing
files are skipped silently; files already in the project bump
`skipped_count`; otherwise the file is added and `added_count` bumps. -/
def processFile (disk : List String) (st : LoopState) (f : String) : LoopState :=
  if fullPath f ∈ disk then
    if get_files_by_name st.proj (baseName (fullPath f)) ≠ [] then
      { st with skipped := st.skipped + 1 }
    else
      { st with proj := add_file st.proj (fullPath f), added := st.added + 1 }
  else
    st

/-- The world visible to `add_files_to_project`: which paths exist on
disk, whether the project file exists, and its current contents. -/
structure FileSystem where
  disk : List String
  projExists : Bool
  projOnDisk : Project
deriving Repr, DecidableEq

/-- Result of `add_files_to_project`: the returned boolean, whether
`project.save()` ran, and the resulting on-disk world. -/
structure AddResult where
  retVal : Bool
  didSave : Bool
  fs : FileSystem
deriving Repr, DecidableEq

/-- The `add_files_to_project` function: load the project, run the
per-file loop, and save back only when `added_count > 0`; the function
returns `True` in every non-error path. -/
def add_files_to_project (fs : FileSystem) : AddResult :=
  if fs.projExists = false then
    ⟨false, false, fs⟩
  else
    let final := NEW_FILES.foldl (processFile fs.disk) ⟨fs.projOnDisk, 0, 0⟩
    if 0 < final.added then
      ⟨true, true, { fs with projOnDisk := final.proj }⟩
    else
      ⟨true, false, fs⟩

/-- A skipped iteration leaves the project and `added_count` unchanged. -/
lemma processFile_skip (disk : List String) (st : LoopState) (f : String)
    (h : fullPath f ∉ disk ∨ get_files_by_name st.proj (baseName (fullPath f)) ≠ []) :
    (processFile disk st f).proj = st.proj ∧
      (processFile disk st f).added = st.added := by
  unfold processFile
  rcases h with h | h
  · rw [if_neg h]
    exact ⟨rfl, rfl⟩
  · by_cases hd : fullPath f ∈ disk
    · rw [if_pos hd, if_pos h]
      exact ⟨rfl, rfl⟩
    · rw [if_neg hd]
      exact ⟨rfl, rfl⟩

/-- When every file in the list is missing on disk or already present
in the project, the whole loop changes neither the project nor
`added_count`. -/
lemma foldl_processFile_skip (disk : List String) (l : List String)
    (st : LoopState)
    (h : ∀ f ∈ l, fullPath f ∉ disk ∨
      get_files_by_name st.proj (baseName (fullPath f)) ≠ []) :
    (l.foldl (processFile disk) st).proj = st.proj ∧
      (l.foldl (processFile disk) st).added = st.added := by
  induction l generalizing st with
  | nil => exact ⟨rfl, rfl⟩
  | cons f t ih =>
    have hf := processFile_skip disk st f (h f (List.mem_cons_self f t))
    have ht : ∀ g ∈ t, fullPath g ∉ disk ∨
        get_files_by_name (processFile disk st f).proj
          (baseName (fullPath g)) ≠ [] := by
      intro g hg
      rw [hf.1]
      exact h g (List.mem_cons_of_mem f hg)
    have := ih (processFile disk st f) ht
    exact ⟨this.1.trans hf.1, this.2.trans hf.2⟩

end Xcode

/-- A filesystem on which every listed file is absent and the project
file exists but is empty. -/
def fsEmpty : Xcode.FileSystem := ⟨[], true, ⟨[]⟩⟩

/-! Claim theorems. -/

/-- C1: for every mesh with at least one vertex and every face_cutoff,
the classification assigns each vertex index to exactly one region:
the Face and Body index sets are disjoint and their union is the full
set of vertex indices. -/
theorem spec_C1 (m : Mesh) (c : ℚ) (hne : 0 < m.vertices.length)
    (thr : ℚ) (hthr : thresholdOf m.vertices c = some thr) :
    (face_verts m.vertices thr).toFinset ∪ (body_verts m.vertices thr).toFinset
        = Finset.range m.vertices.length ∧
      Disjoint (face_verts m.vertices thr).toFinset
        (body_verts m.vertices thr).toFinset := by
  constructor
  · ext i
    simp only [Finset.mem_union, List.mem_toFinset, Finset.mem_range,
      mem_face_verts_iff, mem_body_verts_iff]
    constructor
    · rintro (⟨hi, _⟩ | ⟨hi, _⟩) <;> exact hi
    · intro hi
      by_cases hy : thr ≤ (m.vertices.get ⟨i, hi⟩).y
      · exact Or.inl ⟨hi, hy⟩
      · exact Or.inr ⟨hi, hy⟩
  · rw [Finset.disjoint_left]
    intro i hif hib
    rw [List.mem_toFinset, mem_face_verts_iff] at hif
    rw [List.mem_toFinset, mem_body_verts_iff] at hib
    obtain ⟨hi, hy⟩ := hif
    obtain ⟨hi2, hny⟩ := hib
    exact hny hy

/-- C1 witness: the partition property at a concrete two-vertex mesh
with face_cutoff 1/2. -/
theorem spec_C1_witness :
    (face_verts meshAB.vertices (1/2)).toFinset ∪
        (body_verts meshAB.vertices (1/2)).toFinset
        = Finset.range meshAB.vertices.length ∧
      Disjoint (face_verts meshAB.vertices (1/2)).toFinset
        (body_verts meshAB.vertices (1/2)).toFinset :=
  spec_C1 meshAB (1/2) (by decide) (1/2)
    (by norm_num [thresholdOf, yList, meshAB, vA, vB, listMin, listMax,
      face_threshold, y_range])

/-- C2: for every non-empty mesh the threshold equals
`max_y - (max_y - min_y) * (1 - face_cutoff)`, and a vertex is
classified Face exactly when its y-coordinate is `>=` the threshold,
Body otherwise. -/
theorem spec_C2 (m : Mesh) (c mn mx : ℚ)
    (hmn : listMin (yList m.vertices) = some mn)
    (hmx : listMax (yList m.vertices) = some mx) :
    thresholdOf m.vertices c = some (mx - (mx - mn) * (1 - c)) ∧
      ∀ i (hi : i < m.vertices.length),
        (i ∈ face_verts m.vertices (face_threshold mn mx c) ↔
          face_threshold mn mx c ≤ (m.vertices.get ⟨i, hi⟩).y) ∧
        (i ∈ body_verts m.vertices (face_threshold mn mx c) ↔
          ¬ face_threshold mn mx c ≤ (m.vertices.get ⟨i, hi⟩).y) := by
  refine ⟨?_, ?_⟩
  · unfold thresholdOf
    rw [hmn, hmx]
    simp [face_threshold, y_range]
  · intro i hi
    constructor
    · rw [mem_face_verts_iff]
      exact ⟨fun ⟨h, hy⟩ => hy, fun hy => ⟨hi, hy⟩⟩
    · rw [mem_body_verts_iff]
      exact ⟨fun ⟨h, hy⟩ => hy, fun hy => ⟨hi, hy⟩⟩

/-- C2 witness: the threshold formula and the classification criterion
at a concrete two-vertex mesh with face_cutoff 1/2. -/
theorem spec_C2_witness :
    thresholdOf meshAB.vertices (1/2) = some (1 - (1 - 0) * (1 - 1/2)) ∧
      ∀ i (hi : i < meshAB.vertices.length),
        (i ∈ face_verts meshAB.vertices (face_threshold 0 1 (1/2)) ↔
          face_threshold 0 1 (1/2) ≤ (meshAB.vertices.get ⟨i, hi⟩).y) ∧
        (i ∈ body_verts meshAB.vertices (face_threshold 0 1 (1/2)) ↔
          ¬ face_threshold 0 1 (1/2) ≤ (meshAB.vertices.get ⟨i, hi⟩).y) :=
  spec_C2 meshAB (1/2) 0 1 (by decide) (by decide)

/-- C3 counterexample: with min_y = 0 and max_y = 1 fixed (so
min_y < max_y) and face_cutoff raised from 0 to 1, the threshold moves
from 0 up to 1 — it strictly increases, refuting the claimed strict
decrease. -/
theorem spec_C3_counterexample :
    (0 : ℚ) < (1 : ℚ) ∧ face_threshold 0 1 0 < face_threshold 0 1 1 := by
  constructor
  · norm_num
  · norm_num [face_threshold, y_range]

/-- C3 amended: for fixed min_y < max_y the threshold strictly
increases as face_cutoff increases (a larger cutoff yields a smaller
Face region). -/
theorem spec_C3 (mn mx c1 c2 : ℚ) (hlt : mn < mx) (hc : c1 < c2) :
    face_threshold mn mx c1 < face_threshold mn mx c2 := by
  unfold face_threshold y_range
  nlinarith [mul_pos (sub_pos.mpr hlt) (sub_pos.mpr hc)]

/-- C3 witness: strict increase of the threshold at min_y = 0,
max_y = 1, cutoffs 0 < 1/2. -/
theorem spec_C3_witness :
    (0 : ℚ) < 1 ∧ (0 : ℚ) < 1/2 ∧
      face_threshold 0 1 0 < face_threshold 0 1 (1/2) :=
  ⟨by norm_num, by norm_num, spec_C3 0 1 0 (1/2) (by norm_num) (by norm_num)⟩

/-- C4 counterexample: on a mesh spanning y from 0 to 1, face_cutoff 1
yields threshold 1 = max_y, not min_y = 0, and vertex 0 (y = 0) is not
classified Face. -/
theorem spec_C4_counterexample :
    listMin (yList meshAB.vertices) = some 0 ∧
      thresholdOf meshAB.vertices 1 = some 1 ∧ (1 : ℚ) ≠ 0 ∧
      0 ∉ face_verts meshAB.vertices 1 := by
  refine ⟨by decide, ?_, by norm_num, by decide⟩
  norm_num [thresholdOf, yList, meshAB, vA, vB, listMin, listMax,
    face_threshold, y_range]

/-- C4 amended: for every non-empty mesh, when face_cutoff = 1.0 the
computed threshold equals max_y, and a vertex is classified Face
exactly when its coordinate equals max_y. -/
theorem spec_C4 (m : Mesh) (mn mx : ℚ)
    (hmn : listMin (yList m.vertices) = some mn)
    (hmx : listMax (yList m.vertices) = some mx) :
    thresholdOf m.vertices 1 = some mx ∧
      ∀ i (hi : i < m.vertices.length),
        i ∈ face_verts m.vertices mx ↔ (m.vertices.get ⟨i, hi⟩).y = mx := by
  have hthr : face_threshold mn mx 1 = mx := by
    unfold face_threshold y_range
    ring
  refine ⟨?_, ?_⟩
  · unfold thresholdOf
    rw [hmn, hmx]
    exact congrArg some hthr
  · intro i hi
    have hymem : (m.vertices.get ⟨i, hi⟩).y ∈ yList m.vertices :=
      List.mem_map.mpr ⟨m.vertices.get ⟨i, hi⟩, List.get_mem m.vertices i hi, rfl⟩
    rw [mem_face_verts_iff]
    constructor
    · rintro ⟨h, hy⟩
      exact le_antisymm (le_listMax _ mx hmx _ hymem) hy
    · intro hy
      exact ⟨hi, ge_of_eq hy⟩

/-- C4 amended witness: at the two-vertex mesh, cutoff 1 gives
threshold max_y = 1 and the Face region is exactly the max vertex. -/
theorem spec_C4_witness :
    thresholdOf meshAB.vertices 1 = some 1 ∧
      ∀ i (hi : i < meshAB.vertices.length),
        i ∈ face_verts meshAB.vertices 1 ↔
          (meshAB.vertices.get ⟨i, hi⟩).y = 1 :=
  spec_C4 meshAB 0 1 (by decide) (by decide)

/-- C5 counterexample: on a mesh spanning y from 0 to 1, face_cutoff 0
yields threshold 0 = min_y, not max_y = 1, and vertex 0 (y = 0, below
the maximum) is nonetheless classified Face. -/
theorem spec_C5_counterexample :
    listMax (yList meshAB.vertices) = some 1 ∧
      thresholdOf meshAB.vertices 0 = some 0 ∧ (0 : ℚ) ≠ 1 ∧
      meshAB.vertices[0]? = some vA ∧ vA.y ≠ 1 ∧
      0 ∈ face_verts meshAB.vertices 0 := by
  refine ⟨by decide, ?_, by norm_num, by decide, by decide, by decide⟩
  norm_num [thresholdOf, yList, meshAB, vA, vB, listMin, listMax,
    face_threshold, y_range]

/-- C5 amended: for every non-empty mesh, when face_cutoff = 0.0 the
computed threshold equals min_y, every vertex is classified Face, and
the Body region is empty. -/
theorem spec_C5 (m : Mesh) (mn mx : ℚ)
    (hmn : listMin (yList m.vertices) = some mn)
    (hmx : listMax (yList m.vertices) = some mx) :
    thresholdOf m.vertices 0 = some mn ∧
      (∀ i, i < m.vertices.length → i ∈ face_verts m.vertices mn) ∧
      body_verts m.vertices mn = [] := by
  have hthr : face_threshold mn mx 0 = mn := by
    unfold face_threshold y_range
    ring
  have hface : ∀ i, i < m.vertices.length → i ∈ face_verts m.vertices mn := by
    intro i hi
    have hymem : (m.vertices.get ⟨i, hi⟩).y ∈ yList m.vertices :=
      List.mem_map.mpr ⟨m.vertices.get ⟨i, hi⟩, List.get_mem m.vertices i hi, rfl⟩
    rw [mem_face_verts_iff]
    exact ⟨hi, listMin_le _ mn hmn _ hymem⟩
  refine ⟨?_, hface, ?_⟩
  · unfold thresholdOf
    rw [hmn, hmx]
    exact congrArg some hthr
  · rw [List.eq_nil_iff_forall_not_mem]
    intro i hib
    rw [mem_body_verts_iff] at hib
    obtain ⟨hi, hny⟩ := hib
    have := hface i hi
    rw [mem_face_verts_iff] at this
    obtain ⟨hi2, hy⟩ := this
    exact hny hy

/-- C5 amended witness: at the two-vertex mesh, cutoff 0 gives
threshold min_y = 0, all indices Face, empty Body region. -/
theorem spec_C5_witness :
    thresholdOf meshAB.vertices 0 = some 0 ∧
      (∀ i, i < meshAB.vertices.length → i ∈ face_verts meshAB.vertices 0) ∧
      body_verts meshAB.vertices 0 = [] :=
  spec_C5 meshAB 0 1 (by decide) (by decide)

/-- C6: for every flat non-empty mesh (all vertices share the same
y-coordinate) and every face_cutoff, the threshold equals max_y, every
vertex is classified Face (the Body region is empty), and processing
succeeds without error. -/
theorem spec_C6 (m : Mesh) (c y0 : ℚ) (hne : m.vertices ≠ [])
    (hflat : ∀ v ∈ m.vertices, v.y = y0) :
    ∃ mx, listMax (yList m.vertices) = some mx ∧
      thresholdOf m.vertices c = some mx ∧
      (∀ i, i < m.vertices.length → i ∈ face_verts m.vertices mx) ∧
      body_verts m.vertices mx = [] ∧
      ∀ collapse bodyR faceR, ∃ m2,
        simplify collapse m bodyR faceR c = Except.ok m2 := by
  have hyne : yList m.vertices ≠ [] := by
    intro hnil
    exact hne (List.map_eq_nil_iff.mp hnil)
  obtain ⟨mn, hmn⟩ := listMin_isSome _ hyne
  obtain ⟨mx, hmx⟩ := listMax_isSome _ hyne
  have hally : ∀ x ∈ yList m.vertices, x = y0 := by
    intro x hx
    obtain ⟨v, hv, rfl⟩ := List.mem_map.mp hx
    exact hflat v hv
  have hmn0 : mn = y0 := hally mn (listMin_mem _ mn hmn)
  have hmx0 : mx = y0 := hally mx (listMax_mem _ mx hmx)
  have hthr : face_threshold mn mx c = mx := by
    rw [hmn0, hmx0]
    unfold face_threshold y_range
    ring
  have hthrOf : thresholdOf m.vertices c = some mx := by
    unfold thresholdOf
    rw [hmn, hmx]
    exact congrArg some hthr
  have hface : ∀ i, i < m.vertices.length → i ∈ face_verts m.vertices mx := by
    intro i hi
    rw [mem_face_verts_iff]
    refine ⟨hi, ?_⟩
    rw [hflat _ (List.get_mem m.vertices i hi), hmx0]
  refine ⟨mx, hmx, hthrOf, hface, ?_, ?_⟩
  · rw [List.eq_nil_iff_forall_not_mem]
    intro i hib
    rw [mem_body_verts_iff] at hib
    obtain ⟨hi, hny⟩ := hib
    have := hface i hi
    rw [mem_face_verts_iff] at this
    obtain ⟨hi2, hy⟩ := this
    exact hny hy
  · intro collapse bodyR faceR
    refine ⟨collapse (collapse m bodyR (body_verts m.vertices mx)) faceR
      (face_verts m.vertices mx), ?_⟩
    unfold simplify
    rw [hthrOf]

/-- C6 witness: the flat-mesh behaviour at a concrete two-vertex mesh
with both vertices at y = 2 and face_cutoff 1/2. -/
theorem spec_C6_witness :
    ∃ mx, listMax (yList meshFlat.vertices) = some mx ∧
      thresholdOf meshFlat.vertices (1/2) = some mx ∧
      (∀ i, i < meshFlat.vertices.length →
        i ∈ face_verts meshFlat.vertices mx) ∧
      body_verts meshFlat.vertices mx = [] ∧
      ∀ collapse bodyR faceR, ∃ m2,
        simplify collapse meshFlat bodyR faceR (1/2) = Except.ok m2 :=
  spec_C6 meshFlat (1/2) 2 (by decide) (by decide)

/-- C7: when both ratios are 1.0 and the external collapse transform
at ratio 1.0 preserves the face count, any successful run of the
two-pass simplification leaves the face count unchanged. -/
theorem spec_C7 (collapse : Mesh → ℚ → List ℕ → Mesh)
    (hcol : ∀ m vg, (collapse m 1 vg).polygons.length = m.polygons.length)
    (m : Mesh) (c : ℚ) (m2 : Mesh)
    (hrun : simplify collapse m 1 1 c = Except.ok m2) :
    m2.polygons.length = m.polygons.length := by
  unfold simplify at hrun
  cases hth : thresholdOf m.vertices c with
  | none =>
    rw [hth] at hrun
    cases hrun
  | some thr =>
    rw [hth] at hrun
    simp only [Except.ok.injEq] at hrun
    rw [← hrun]
    exact (hcol _ _).trans (hcol _ _)

/-- C7 witness: with the identity collapse transform and ratios 1.0,
processing the concrete two-vertex mesh returns it with its face count
unchanged. -/
theorem spec_C7_witness :
    simplify (fun m _ _ => m) meshAB 1 1 (1/2) = Except.ok meshAB ∧
      meshAB.polygons.length = meshAB.polygons.length := by
  have hrun : simplify (fun m _ _ => m) meshAB 1 1 (1/2) = Except.ok meshAB := by
    unfold simplify
    have hthr : thresholdOf meshAB.vertices (1/2) = some (1/2) := by
      norm_num [thresholdOf, yList, meshAB, vA, vB, listMin, listMax,
        face_threshold, y_range]
    rw [hthr]
  exact ⟨hrun,
    spec_C7 (fun m _ _ => m) (fun m vg => rfl) meshAB (1/2) meshAB hrun⟩

/-- C8: the simplification fails with EmptyMeshError exactly on meshes
with zero vertices; on any mesh with at least one vertex the error
branch is not taken. -/
theorem spec_C8 (collapse : Mesh → ℚ → List ℕ → Mesh)
    (m : Mesh) (bodyR faceR c : ℚ) :
    simplify collapse m bodyR faceR c
        = Except.error SimplifyError.EmptyMeshError
      ↔ m.vertices = [] := by
  cases hv : m.vertices with
  | nil =>
    simp [simplify, thresholdOf, yList, hv, listMin, listMax]
  | cons a rest =>
    simp [simplify, thresholdOf, yList, hv, listMin, listMax]

/-- C9: for every non-empty mesh and every face_cutoff at most 1, the
computed threshold is at most max_y, so the index of a vertex
attaining max_y lies in the Face region, which is therefore
non-empty. -/
theorem spec_C9 (m : Mesh) (c : ℚ) (hc : c ≤ 1) (mn mx : ℚ)
    (hmn : listMin (yList m.vertices) = some mn)
    (hmx : listMax (yList m.vertices) = some mx) :
    face_threshold mn mx c ≤ mx ∧
      ∃ i, ∃ hi : i < m.vertices.length,
        (m.vertices.get ⟨i, hi⟩).y = mx ∧
        i ∈ face_verts m.vertices (face_threshold mn mx c) := by
  have hmnmx : mn ≤ mx :=
    le_listMax _ mx hmx mn (listMin_mem _ mn hmn)
  have hthr : face_threshold mn mx c ≤ mx := by
    unfold face_threshold y_range
    have h0 : 0 ≤ (mx - mn) * (1 - c) :=
      mul_nonneg (sub_nonneg.mpr hmnmx) (sub_nonneg.mpr hc)
    linarith
  obtain ⟨v, hv, hvy⟩ := List.mem_map.mp (listMax_mem _ mx hmx)
  obtain ⟨⟨i, hi⟩, hget⟩ := List.mem_iff_get.mp hv
  refine ⟨hthr, i, hi, ?_, ?_⟩
  · rw [hget]
    exact hvy
  · rw [mem_face_verts_iff]
    refine ⟨hi, ?_⟩
    rw [hget, hvy]
    exact hthr

/-- C9 witness: at the concrete two-vertex mesh with face_cutoff 1,
the Face region contains the index of the vertex at max_y. -/
theorem spec_C9_witness :
    face_threshold 0 1 1 ≤ 1 ∧
      ∃ i, ∃ hi : i < meshAB.vertices.length,
        (meshAB.vertices.get ⟨i, hi⟩).y = 1 ∧
        i ∈ face_verts meshAB.vertices (face_threshold 0 1 1) :=
  spec_C9 meshAB 1 (by norm_num) 0 1 (by decide) (by decide)

/-- C10: when the project file exists but every listed file is missing
on disk or already present in the project, add_files_to_project adds
nothing, performs no save, leaves the filesystem unchanged, and still
returns True. -/
theorem spec_C10 (fs : Xcode.FileSystem)
    (hex : fs.projExists = true)
    (h : ∀ f ∈ Xcode.NEW_FILES,
      Xcode.fullPath f ∉ fs.disk ∨
        Xcode.get_files_by_name fs.projOnDisk
          (Xcode.baseName (Xcode.fullPath f)) ≠ []) :
    Xcode.add_files_to_project fs = ⟨true, false, fs⟩ := by
  unfold Xcode.add_files_to_project
  rw [hex]
  have hskip := Xcode.foldl_processFile_skip fs.disk Xcode.NEW_FILES
    ⟨fs.projOnDisk, 0, 0⟩ h
  simp only [Bool.true_eq_false, if_false, hskip.2, lt_irrefl, if_neg,
    not_false_eq_true]

/-- C10 witness: on a filesystem where none of the listed files exist,
the function saves nothing and returns True with the world intact. -/
theorem spec_C10_witness :
    Xcode.add_files_to_project fsEmpty = ⟨true, false, fsEmpty⟩ :=
  spec_C10 fsEmpty rfl (by decide)
